import Mathlib

/-!
Verification of the sharded Jellyfish-Merkle-tree (JMT) write/read pipeline of
`rust-wizard/aptos-core` (sharded authenticated key-value store).

The repository sources under verification are the benchmark drivers
`storage/aptosdb/src/bin/sharded_jmt_bench.rs`,
`storage/aptosdb/benches/sharded_jmt_parallel_benchmark.rs`,
`execution/executor-benchmark/src/jmt_sharding_benchmark.rs` and the crate
root `storage/aptosdb/src/lib.rs`.  The callees they exercise
(`merklize_value_set_for_shard`, `calculate_top_levels`, the two `commit`s,
`get_state_value_with_proof_by_version` and the `StateValueByKeyHashSchema`
lookup) live in crates outside the source set, so those operations are
modelled from the specification (each such definition carries a doc comment
starting with `Modelled from the spec:`).  `get_state_shard_id` is in the
sources and is embedded directly.

Modelling conventions:
* A key hash is its list of bits (`List Bool`), most significant bit first;
  a `HashValue` on the byte level is a `List Nat` of its bytes.
* Value hashes are opaque naturals.
* Cryptographic hashes form the free algebra `NodeHash`; distinct
  constructors model the domain-separated leaf/internal/null encodings, so
  hash equality is exactly encoding equality (ideal collision resistance).
-/

namespace ShardedJmt

/-- Hash values of tree nodes, as a free algebra: `leafH`/`internalH`/`nullH`
are the domain-separated encodings of the three node kinds required by the
spec, and constructor disjointness models collision resistance. -/
inductive NodeHash where
  | nullH : NodeHash
  | leafH : List Bool → Nat → NodeHash
  | internalH : NodeHash → NodeHash → NodeHash
deriving DecidableEq, Repr

/-- Key hashes, as bit lists (most significant bit first). -/
abbrev KeyHash := List Bool

/-- Value hashes, opaque. -/
abbrev ValueHash := Nat

/-- One shard's persistent authenticated tree: `null` is the empty subtree,
a `leaf` stores the full key hash and the value hash, an `internal` node has
two children.  Nodes are pure values, so structural sharing between the tree
at a base version and the tree at a target version is copy-on-write by
construction. -/
inductive Tree where
  | null : Tree
  | leaf : KeyHash → ValueHash → Tree
  | internal : Tree → Tree → Tree
deriving DecidableEq, Repr

namespace Tree

/-- Left child (the empty subtree when the node is not internal). -/
def childL : Tree → Tree
  | Tree.internal l _ => l
  | _ => Tree.null

/-- Right child (the empty subtree when the node is not internal). -/
def childR : Tree → Tree
  | Tree.internal _ r => r
  | _ => Tree.null

end Tree

/-- Smart internal-node constructor: an internal node whose two children are
both empty collapses to the empty subtree (the spec's collapsing of branch
nodes), keeping the representation canonical. -/
def mkInternal (l r : Tree) : Tree :=
  if l = Tree.null ∧ r = Tree.null then Tree.null else Tree.internal l r

/-- Write the leaf (or emptiness, for a deletion) addressed by the bit path
`p`, rebuilding only the nodes along the path and sharing every untouched
sibling subtree.  This is the single-update step of the spec's `merklize`. -/
def setLeaf : List Bool → Tree → Option (KeyHash × ValueHash) → Tree
  | [], _, some kv => Tree.leaf kv.1 kv.2
  | [], _, none => Tree.null
  | false :: p, t, x => mkInternal (setLeaf p t.childL x) t.childR
  | true :: p, t, x => mkInternal t.childL (setLeaf p t.childR x)

/-- Read the leaf addressed by the bit path `p`. -/
def getLeaf : List Bool → Tree → Option (KeyHash × ValueHash)
  | [], Tree.leaf k v => some (k, v)
  | [], _ => none
  | false :: p, t => getLeaf p t.childL
  | true :: p, t => getLeaf p t.childR

/-- Hash of a tree node (the shard root hash when applied to the root). -/
def rootHash : Tree → NodeHash
  | Tree.null => NodeHash.nullH
  | Tree.leaf k v => NodeHash.leafH k v
  | Tree.internal l r => NodeHash.internalH (rootHash l) (rootHash r)

/-- Sibling hashes collected while descending along the bit path `p`,
root-to-leaf order. -/
def proofSiblings : List Bool → Tree → List NodeHash
  | [], _ => []
  | false :: p, t => rootHash t.childR :: proofSiblings p t.childL
  | true :: p, t => rootHash t.childL :: proofSiblings p t.childR

/-- Recompute a root hash from a starting hash `h` and a root-to-leaf
sibling list along the bit path `p`: this is the independent verifier of the
spec, which uses only the sibling list and the hash at the bottom. -/
def combine : List Bool → List NodeHash → NodeHash → NodeHash
  | [], _, h => h
  | _ :: _, [], h => h
  | false :: p, s :: ss, h => NodeHash.internalH (combine p ss h) s
  | true :: p, s :: ss, h => NodeHash.internalH s (combine p ss h)

section BasicLemmas

@[simp] theorem childL_mkInternal (l r : Tree) : (mkInternal l r).childL = l := by
  unfold mkInternal
  split
  · next h => simp [Tree.childL, h.1]
  · rfl

@[simp] theorem childR_mkInternal (l r : Tree) : (mkInternal l r).childR = r := by
  unfold mkInternal
  split
  · next h => simp [Tree.childR, h.2]
  · rfl

theorem getLeaf_null (p : List Bool) : getLeaf p Tree.null = none := by
  induction p with
  | nil => rfl
  | cons b p ih => cases b <;> simp [getLeaf, Tree.childL, Tree.childR, ih]

theorem getLeaf_setLeaf_self (p : List Bool) (t : Tree)
    (x : Option (KeyHash × ValueHash)) : getLeaf p (setLeaf p t x) = x := by
  induction p generalizing t with
  | nil => cases x <;> rfl
  | cons b p ih => cases b <;> simp [getLeaf, setLeaf, ih]

theorem getLeaf_setLeaf_ne (p q : List Bool) (t : Tree)
    (x : Option (KeyHash × ValueHash)) (hlen : p.length = q.length)
    (hne : p ≠ q) : getLeaf p (setLeaf q t x) = getLeaf p t := by
  induction p generalizing q t with
  | nil =>
    cases q with
    | nil => exact absurd rfl hne
    | cons b q => simp at hlen
  | cons b p ih =>
    cases q with
    | nil => simp at hlen
    | cons c q =>
      simp only [List.length_cons, Nat.succ.injEq] at hlen
      cases b <;> cases c <;>
        simp only [getLeaf, setLeaf, childL_mkInternal, childR_mkInternal] <;>
        first
        | rfl
        | exact ih q _ hlen (by intro h; exact hne (by rw [h]))

/-- Two single-leaf writes at distinct paths of equal length commute. -/
theorem setLeaf_comm (p q : List Bool) (t : Tree)
    (x y : Option (KeyHash × ValueHash)) (hlen : p.length = q.length)
    (hne : p ≠ q) :
    setLeaf p (setLeaf q t y) x = setLeaf q (setLeaf p t x) y := by
  induction p generalizing q t with
  | nil =>
    cases q with
    | nil => exact absurd rfl hne
    | cons b q => simp at hlen
  | cons b p ih =>
    cases q with
    | nil => simp at hlen
    | cons c q =>
      simp only [List.length_cons, Nat.succ.injEq] at hlen
      cases b <;> cases c <;>
        simp only [setLeaf, childL_mkInternal, childR_mkInternal] <;>
        first
        | rfl
        | rw [ih q _ hlen (by intro h; exact hne (by rw [h]))]

/-- Verifier correctness on one shard tree: when the leaf addressed by `p`
holds `(k, vh)`, recombining the collected siblings with the leaf hash
reproduces the shard root hash. -/
theorem combine_proofSiblings (p : List Bool) (t : Tree) (k : KeyHash)
    (vh : ValueHash) (h : getLeaf p t = some (k, vh)) :
    combine p (proofSiblings p t) (NodeHash.leafH k vh) = rootHash t := by
  induction p generalizing t with
  | nil =>
    cases t with
    | null => simp [getLeaf] at h
    | leaf k' v' =>
      simp only [getLeaf, Option.some.injEq, Prod.mk.injEq] at h
      simp [combine, proofSiblings, rootHash, h.1, h.2]
    | internal l r => simp [getLeaf] at h
  | cons b p ih =>
    cases t with
    | null =>
      rw [show getLeaf (b :: p) Tree.null
            = getLeaf p Tree.null by cases b <;> rfl, getLeaf_null] at h
      exact absurd h (by simp)
    | leaf k' v' =>
      have hnull : getLeaf (b :: p) (Tree.leaf k' v') = none := by
        cases b <;> simp [getLeaf, Tree.childL, Tree.childR, getLeaf_null]
      rw [hnull] at h
      exact absurd h (by simp)
    | internal l r =>
      cases b with
      | false =>
        simp only [getLeaf, Tree.childL] at h
        simp [proofSiblings, combine, rootHash, Tree.childL, Tree.childR,
          ih l h]
      | true =>
        simp only [getLeaf, Tree.childR] at h
        simp [proofSiblings, combine, rootHash, Tree.childL, Tree.childR,
          ih r h]

theorem combine_append (p1 p2 : List Bool) (s1 s2 : List NodeHash)
    (h : NodeHash) (hlen : s1.length = p1.length) :
    combine (p1 ++ p2) (s1 ++ s2) h = combine p1 s1 (combine p2 s2 h) := by
  induction p1 generalizing s1 with
  | nil =>
    have : s1 = [] := List.length_eq_zero.mp (by simpa using hlen)
    simp [this, combine]
  | cons b p1 ih =>
    cases s1 with
    | nil => simp at hlen
    | cons s ss =>
      simp only [List.length_cons, Nat.succ.injEq] at hlen
      cases b <;> simp [combine, ih ss hlen]

end BasicLemmas

/-! ## Shard routing -/

/-- Modelled from the spec: `NUM_STATE_SHARDS` is the fixed shard count N
from `aptos_types::state_store` (a crate outside the source set); its
deployed value is 16. -/
def NUM_STATE_SHARDS : Nat := 16

/-- `get_state_shard_id` from
`storage/aptosdb/benches/sharded_jmt_parallel_benchmark.rs`: the first byte
of the key hash reduced modulo `NUM_STATE_SHARDS`.  A `HashValue` is a fixed
32-byte hash, modelled as its byte list; `key[0]` is the head byte. -/
def get_state_shard_id (key : List Nat) : Nat :=
  key.headD 0 % NUM_STATE_SHARDS

/-- Numeric value of a bit path, most significant bit first. -/
def pathToNat (p : List Bool) : Nat :=
  p.foldl (fun a b => 2 * a + cond b 1 0) 0

/-- The first byte of a key hash given as a bit list. -/
def firstByte (k : KeyHash) : Nat := pathToNat (k.take 8)

/-- Shard of a key hash on the bit-list representation: the same
`get_state_shard_id` routing applied to the byte representation, used
identically on the write path and on the read path. -/
def shardOf (k : KeyHash) : Nat := get_state_shard_id [firstByte k]

/-- The per-shard update buckets built by the routing loop of the benchmark
(`all_updates[get_state_shard_id(&key)].push(...)`), starting from
`NUM_STATE_SHARDS` empty buckets. -/
def routeAll {V : Type} (kvs : List (List Nat × V)) :
    List (List (List Nat × V)) :=
  kvs.foldl
    (fun acc kv =>
      acc.set (get_state_shard_id kv.1)
        (acc.getD (get_state_shard_id kv.1) [] ++ [kv]))
    (List.replicate NUM_STATE_SHARDS [])

theorem get_state_shard_id_lt (key : List Nat) :
    get_state_shard_id key < NUM_STATE_SHARDS :=
  Nat.mod_lt _ (by decide)

theorem shardOf_lt (k : KeyHash) : shardOf k < NUM_STATE_SHARDS :=
  get_state_shard_id_lt _

section RouteLemmas

theorem getD_set_self {α : Type} (l : List α) (i : Nat) (x d : α)
    (h : i < l.length) : (l.set i x).getD i d = x := by
  simp [List.getD, List.getElem?_set_self', h]

theorem getD_set_ne {α : Type} (l : List α) (i j : Nat) (x d : α)
    (h : i ≠ j) : (l.set i x).getD j d = l.getD j d := by
  simp [List.getD, List.getElem?_set_ne h]

theorem length_set_eq {α : Type} (l : List α) (i : Nat) (x : α) :
    (l.set i x).length = l.length := List.length_set l i x

/-- The routing loop invariant: each bucket of `routeAll` holds exactly the
pairs whose key routes to it, in input order. -/
theorem routeAll_getD {V : Type} (kvs : List (List Nat × V)) (s : Nat)
    (hs : s < NUM_STATE_SHARDS) :
    (routeAll kvs).getD s [] = kvs.filter (fun kv => get_state_shard_id kv.1 == s) := by
  suffices h : ∀ (acc : List (List (List Nat × V))), acc.length = NUM_STATE_SHARDS →
      (kvs.foldl
        (fun acc kv =>
          acc.set (get_state_shard_id kv.1)
            (acc.getD (get_state_shard_id kv.1) [] ++ [kv])) acc).getD s []
      = acc.getD s [] ++ kvs.filter (fun kv => get_state_shard_id kv.1 == s) by
    have := h (List.replicate NUM_STATE_SHARDS []) (by simp)
    simpa [routeAll] using this
  induction kvs with
  | nil => intro acc _; simp
  | cons kv kvs ih =>
    intro acc hacc
    simp only [List.foldl_cons]
    rw [ih _ (by rw [length_set_eq]; exact hacc)]
    by_cases hkv : get_state_shard_id kv.1 = s
    · rw [hkv, getD_set_self _ _ _ _ (by rw [hacc]; exact hs)]
      simp [List.filter_cons, hkv]
    · rw [getD_set_ne _ _ _ _ _ hkv]
      simp [List.filter_cons, hkv]

end RouteLemmas

/-! ## Top-level aggregation tree -/

/-- Depth of the fixed top-level tree combining the shard roots:
`NUM_STATE_SHARDS = 2 ^ TOP_DEPTH`. -/
def TOP_DEPTH : Nat := 4

/-- Hash of the fixed-depth top-level tree of depth `d` whose leaves are
addressed by bit paths through `f`. -/
def topHashP : Nat → (List Bool → NodeHash) → NodeHash
  | 0, f => f []
  | d + 1, f =>
    NodeHash.internalH (topHashP d (fun q => f (false :: q)))
      (topHashP d (fun q => f (true :: q)))

/-- Sibling hashes along the top-level path `p`, root-to-leaf order. -/
def topSibs : List Bool → (List Bool → NodeHash) → List NodeHash
  | [], _ => []
  | b :: p, f =>
    (if b then topHashP p.length (fun q => f (false :: q))
     else topHashP p.length (fun q => f (true :: q)))
      :: topSibs p (fun q => f (b :: q))

/-- Global root hash over a shard-root assignment: the top-level tree of
depth `TOP_DEPTH` whose leaf at path `p` is the root of shard `pathToNat p`
(shard id = leaf index). -/
def topRootOf (f : Nat → NodeHash) : NodeHash :=
  topHashP TOP_DEPTH (fun p => f (pathToNat p))

theorem topSibs_length (p : List Bool) (f : List Bool → NodeHash) :
    (topSibs p f).length = p.length := by
  induction p generalizing f with
  | nil => rfl
  | cons b p ih => simp [topSibs, ih]

/-- Big-endian bits of `n`, `w` bits wide (most significant first). -/
def bitsBE : Nat → Nat → List Bool
  | 0, _ => []
  | w + 1, n => n.testBit w :: bitsBE w n

theorem length_bitsBE (w n : Nat) : (bitsBE w n).length = w := by
  induction w with
  | zero => rfl
  | succ w ih => simp [bitsBE, ih]

theorem pathToNat_bitsBE :
    ∀ s < NUM_STATE_SHARDS, pathToNat (bitsBE TOP_DEPTH s) = s := by decide

/-- Verifier correctness on the top-level tree: recombining the collected
top-level siblings with the leaf value reproduces the aggregated root. -/
theorem combine_topSibs (p : List Bool) (f : List Bool → NodeHash) :
    combine p (topSibs p f) (f p) = topHashP p.length f := by
  induction p generalizing f with
  | nil => rfl
  | cons b p ih => cases b <;> simp [topSibs, combine, topHashP, ih]

/-! ## Per-shard merklization and the version history -/

/-- One shard's ordered update list for one version: `(key_hash, some vh)`
is an insert/update, `(key_hash, none)` a deletion. -/
abbrev Batch := List (KeyHash × Option ValueHash)

/-- One version's updates, one batch per shard (index = shard id). -/
abbrev ShardedBatch := List Batch

/-- Apply one update to a shard tree: descend along the key's bit path and
rewrite only the nodes on that path. -/
def applyUpdate (t : Tree) (u : KeyHash × Option ValueHash) : Tree :=
  setLeaf u.1 t (u.2.map (fun vh => (u.1, vh)))

/-- Modelled from the spec: the tree-building core of
`merklize_value_set_for_shard` (crate `aptos_state_merkle_db`, outside the
source set) — fold the ordered updates over the tree rooted at the base
version. -/
def merklize (t : Tree) (b : Batch) : Tree := b.foldl applyUpdate t

/-- Shard `s`'s tree after committing every version of `hist` in order,
starting from the empty tree. -/
def shardTreeAt (hist : List ShardedBatch) (s : Nat) : Tree :=
  hist.foldl (fun t vb => merklize t (vb.getD s [])) Tree.null

/-- Shard `s`'s tree as of `version` (versions are indices into `hist`). -/
def treeAt (hist : List ShardedBatch) (version s : Nat) : Tree :=
  shardTreeAt (hist.take (version + 1)) s

/-- Shard `s`'s root hash as of `version`. -/
def shardRootAt (hist : List ShardedBatch) (version s : Nat) : NodeHash :=
  rootHash (treeAt hist version s)

/-- Modelled from the spec: `get_root_hash(version)` — the global root is
the fixed-depth top-level tree over the `NUM_STATE_SHARDS` shard roots at
that version. -/
def get_root_hash (hist : List ShardedBatch) (version : Nat) : NodeHash :=
  topRootOf (shardRootAt hist version)

/-- Modelled from the spec: the `ProofReader`'s
`get_with_proof(key_hash, version)` (the repository's
`get_state_value_with_proof_by_version` lives outside the source set).  It
resolves the shard id, reads the shard tree pinned at `version`, and returns
the leaf's value hash together with the sibling list: top-level siblings
from the global root down to the shard root, then shard-tree siblings down
to the leaf. -/
def get_with_proof (hist : List ShardedBatch) (k : KeyHash) (version : Nat) :
    Option ValueHash × List NodeHash :=
  let s := shardOf k
  let t := treeAt hist version s
  ((getLeaf k t).map (fun kv => kv.2),
    topSibs (bitsBE TOP_DEPTH s) (fun p => shardRootAt hist version (pathToNat p))
      ++ proofSiblings k t)

/-- The independent verifier: from only the key, the leaf's value hash and
the sibling list, recompute the global root hash. -/
def verifyProof (k : KeyHash) (vh : ValueHash) (sibs : List NodeHash) : NodeHash :=
  combine (bitsBE TOP_DEPTH (shardOf k) ++ k) sibs (NodeHash.leafH k vh)

/-- Last update to key `k` in one batch, given the last update `a` seen so
far: `some (some vh)` means last set to `vh`, `some none` last deleted,
`none` never touched. -/
def lastUpd (k : KeyHash) (b : Batch) (a : Option (Option ValueHash)) :
    Option (Option ValueHash) :=
  b.foldl (fun a u => if u.1 = k then some u.2 else a) a

/-- Last update to key `k` across all shards of all versions `≤ version`. -/
def lastWriteAll (hist : List ShardedBatch) (k : KeyHash) (version : Nat) :
    Option (Option ValueHash) :=
  (hist.take (version + 1)).foldl (fun a vb => lastUpd k vb.flatten a) none

section LastWriteLemmas

/-- What a lookup resolves to, given the last recorded update. -/
def resolve (k : KeyHash) (t : Tree) (r : Option (Option ValueHash)) :
    Option (KeyHash × ValueHash) :=
  match r with
  | none => getLeaf k t
  | some none => none
  | some (some vh) => some (k, vh)

theorem lastUpd_append (k : KeyHash) (b1 b2 : Batch) (a : Option (Option ValueHash)) :
    lastUpd k (b1 ++ b2) a = lastUpd k b2 (lastUpd k b1 a) := by
  simp [lastUpd, List.foldl_append]

theorem lastUpd_cons (k : KeyHash) (u : KeyHash × Option ValueHash) (b : Batch)
    (a : Option (Option ValueHash)) :
    lastUpd k (u :: b) a = lastUpd k b (if u.1 = k then some u.2 else a) := rfl

theorem lastUpd_acc (k : KeyHash) (b : Batch) (a : Option (Option ValueHash)) :
    lastUpd k b a = match lastUpd k b none with
      | some x => some x
      | none => a := by
  induction b generalizing a with
  | nil => rfl
  | cons u b ih =>
    rw [lastUpd_cons, lastUpd_cons]
    by_cases hu : u.1 = k
    · rw [if_pos hu, if_pos hu, ih (some u.2)]
      cases lastUpd k b none <;> rfl
    · rw [if_neg hu, if_neg hu, ih a]

theorem lastUpd_not_mem (k : KeyHash) (b : Batch) (a : Option (Option ValueHash))
    (h : ∀ u ∈ b, u.1 ≠ k) : lastUpd k b a = a := by
  induction b generalizing a with
  | nil => rfl
  | cons u b ih =>
    simp only [lastUpd, List.foldl_cons]
    rw [if_neg (h u (by simp))]
    exact ih a (fun u hu => h u (by simp [hu]))

/-- When every bucket other than `s` is free of key `k`, the last update in
a version's flattened updates is the last update in bucket `s`. -/
theorem lastUpd_flatten (k : KeyHash) (s : Nat) (vb : List Batch)
    (a : Option (Option ValueHash))
    (h : ∀ i, i ≠ s → ∀ u ∈ vb.getD i [], u.1 ≠ k) :
    lastUpd k vb.flatten a = lastUpd k (vb.getD s []) a := by
  induction vb generalizing s a with
  | nil => simp [List.getD]
  | cons b vb ih =>
    rw [List.flatten_cons, lastUpd_append]
    cases s with
    | zero =>
      have hvb : ∀ u ∈ vb.flatten, u.1 ≠ k := by
        intro u hu
        obtain ⟨l, hl, hul⟩ := List.mem_flatten.mp hu
        obtain ⟨⟨j, hj⟩, rfl⟩ := List.mem_iff_get.mp hl
        have : vb.getD j [] = vb.get ⟨j, hj⟩ := by
          simp [List.getD, List.getElem?_eq_getElem hj]
        refine h (j + 1) (by simp) u ?_
        have h2 : (b :: vb).getD (j + 1) [] = vb.getD j [] := by
          simp [List.getD]
        rw [h2, this]
        exact hul
      rw [lastUpd_not_mem k vb.flatten _ hvb]
      rfl
    | succ s' =>
      have hb : lastUpd k b a = a := by
        refine lastUpd_not_mem k b a ?_
        intro u hu
        exact h 0 (by simp) u (by simpa [List.getD] using hu)
      rw [hb, ih s' a (fun i hi u hu => h (i + 1) (by simpa using hi) u
        (by simpa [List.getD] using hu))]
      rfl

theorem resolve_some (k : KeyHash) (t t' : Tree) (x : Option ValueHash) :
    resolve k t (some x) = resolve k t' (some x) := by
  cases x <;> rfl

/-- One-batch lookup: after merklizing a batch, the leaf for `k` reflects
the batch's last update to `k`, or the base tree's leaf when untouched. -/
theorem getLeaf_merklize (k : KeyHash) (b : Batch) (t : Tree)
    (hw : ∀ u ∈ b, u.1.length = k.length) :
    getLeaf k (merklize t b) = resolve k t (lastUpd k b none) := by
  induction b generalizing t with
  | nil => rfl
  | cons u b ih =>
    have hmerk : merklize t (u :: b) = merklize (applyUpdate t u) b := rfl
    rw [hmerk, ih (applyUpdate t u) (fun v hv => hw v (by simp [hv])),
      lastUpd_cons, lastUpd_acc k b (if u.1 = k then some u.2 else none)]
    cases hX : lastUpd k b none with
    | some x => exact resolve_some k _ _ x
    | none =>
      by_cases hu : u.1 = k
      · rw [if_pos hu]
        subst hu
        show getLeaf u.1 (setLeaf u.1 t (u.2.map (fun vh => (u.1, vh))))
          = resolve u.1 t (some u.2)
        rw [getLeaf_setLeaf_self]
        cases u.2 <;> rfl
      · rw [if_neg hu]
        show getLeaf k (setLeaf u.1 t (u.2.map (fun vh => (u.1, vh))))
          = getLeaf k t
        exact getLeaf_setLeaf_ne k u.1 t _ (hw u (by simp)).symm
          (fun h => hu (h.symm))

theorem lastUpdList_acc (k : KeyHash) (bs : List Batch)
    (a : Option (Option ValueHash)) :
    bs.foldl (fun a b => lastUpd k b a) a
      = match bs.foldl (fun a b => lastUpd k b a) none with
        | some x => some x
        | none => a := by
  induction bs generalizing a with
  | nil => rfl
  | cons b bs ih =>
    simp only [List.foldl_cons]
    rw [ih (lastUpd k b a), ih (lastUpd k b none), lastUpd_acc k b a]
    cases bs.foldl (fun a b => lastUpd k b a) none with
    | some x => rfl
    | none => cases lastUpd k b none <;> rfl

/-- Multi-version lookup: after folding a stream of batches, the leaf for
`k` reflects the stream's last update to `k`. -/
theorem getLeaf_foldBatches (k : KeyHash) (bs : List Batch) (t : Tree)
    (hw : ∀ b ∈ bs, ∀ u ∈ b, u.1.length = k.length) :
    getLeaf k (bs.foldl merklize t)
      = resolve k t (bs.foldl (fun a b => lastUpd k b a) none) := by
  induction bs generalizing t with
  | nil => rfl
  | cons b bs ih =>
    simp only [List.foldl_cons]
    rw [ih (merklize t b) (fun b' hb' => hw b' (by simp [hb'])),
      lastUpdList_acc k bs (lastUpd k b none)]
    cases hX : bs.foldl (fun a b => lastUpd k b a) none with
    | some x => exact resolve_some k _ _ x
    | none =>
      show getLeaf k (merklize t b) = resolve k t (lastUpd k b none)
      exact getLeaf_merklize k b t (hw b (by simp))

theorem mem_getD_flatten {α : Type} (vb : List (List α)) (s : Nat) (u : α)
    (hu : u ∈ vb.getD s []) : u ∈ vb.flatten := by
  by_cases hs : s < vb.length
  · have : vb.getD s [] = vb.get ⟨s, hs⟩ := by
      simp [List.getD, List.getElem?_eq_getElem hs]
    rw [this] at hu
    exact List.mem_flatten.mpr ⟨vb.get ⟨s, hs⟩, List.get_mem vb s hs, hu⟩
  · have : vb.getD s [] = [] := by
      simp [List.getD, List.getElem?_eq_none (Nat.le_of_not_lt hs)]
    rw [this] at hu
    exact absurd hu (List.not_mem_nil u)

/-- Under correct routing, tracking `k`'s last update over the flattened
per-version updates is the same as tracking it over `k`'s own shard
stream. -/
theorem lastWrite_flatten_getD (k : KeyHash) (hist' : List ShardedBatch)
    (hroute : ∀ vb ∈ hist', ∀ i, ∀ u ∈ vb.getD i [], shardOf u.1 = i) :
    hist'.foldl (fun a vb => lastUpd k vb.flatten a) none
      = hist'.foldl (fun a vb => lastUpd k (vb.getD (shardOf k) []) a) none := by
  suffices h : ∀ a, hist'.foldl (fun a vb => lastUpd k vb.flatten a) a
      = hist'.foldl (fun a vb => lastUpd k (vb.getD (shardOf k) []) a) a from h none
  induction hist' with
  | nil => intro a; rfl
  | cons vb hist' ih =>
    intro a
    simp only [List.foldl_cons]
    rw [lastUpd_flatten k (shardOf k) vb a ?_]
    · exact ih (fun vb' hvb' => hroute vb' (by simp [hvb'])) _
    · intro i hi u hu
      intro hk
      exact hi (by rw [← hroute vb (by simp) i u hu, hk])

end LastWriteLemmas

/-! ## The commit pipeline -/

/-- The copy-on-write node delta between the tree at the base version and
the tree at the target version: every node of the new tree (with its
address path) outside a shared (hence unmodified) subtree.  Shared subtrees
are referenced, not rewritten. -/
def diffNodes (pos : List Bool) (old t : Tree) : List (List Bool × NodeHash) :=
  if old = t then []
  else
    match t with
    | Tree.null => []
    | Tree.leaf k v => [(pos, NodeHash.leafH k v)]
    | Tree.internal l r =>
      (pos, NodeHash.internalH (rootHash l) (rootHash r))
        :: (diffNodes (pos ++ [false]) old.childL l
            ++ diffNodes (pos ++ [true]) old.childR r)

/-- Modelled from the spec: `merklize_value_set_for_shard` of
`StateMerkleDb` (outside the source set) — merge one shard's ordered
updates into the tree at the base version and return the new root node
together with the raw batch of newly created nodes. -/
def merklize_value_set_for_shard (_shard_id : Nat) (updates : Batch)
    (base : Tree) : Tree × List (List Bool × NodeHash) :=
  let t := merklize base updates
  (t, diffNodes [] base t)

/-- Modelled from the spec: `calculate_top_levels` of `StateMerkleDb`
(outside the source set) — aggregate the shard root nodes of a version into
the global root hash via the fixed-depth top-level tree; fatal unless given
a root for every one of the `NUM_STATE_SHARDS` shards. -/
def calculate_top_levels (roots : List NodeHash) : Except String NodeHash :=
  if roots.length = NUM_STATE_SHARDS then
    Except.ok (topRootOf (fun s => roots.getD s NodeHash.nullH))
  else Except.error "expect shard root nodes for all shards"

/-- The sequential merklization loop of `bench_sharded_jmt_end2end`
(`sharded_jmt_bench.rs`): for each shard id in order, merklize and push the
root node and the raw batch. -/
def merklizeAllSequential (base : Nat → Tree) (updates : List Batch) :
    List Tree × List (List (List Bool × NodeHash)) :=
  (List.range NUM_STATE_SHARDS).foldl
    (fun acc sid =>
      let rb := merklize_value_set_for_shard sid (updates.getD sid []) (base sid)
      (acc.1 ++ [rb.1], acc.2 ++ [rb.2]))
    ([], [])

/-- The parallel merklization of `bench_merklize_parallel` and
`call_merklize_directly`: the rayon `par_iter().map(..).unzip()` over the
shards, modelled by its functional behaviour (an index-order-preserving
map, since shards share no mutable state). -/
def merklizeAllParallel (base : Nat → Tree) (updates : List Batch) :
    List Tree × List (List (List Bool × NodeHash)) :=
  ((List.range NUM_STATE_SHARDS).map
    (fun sid => merklize_value_set_for_shard sid (updates.getD sid []) (base sid))).unzip

/-! ## The versioned commit coordinator -/

/-- The durable state: per-version persisted shard trees (node store),
per-version persisted global roots (top-level store), raw value records,
and the latest committed version. -/
structure DbState where
  nodeStore : List (Nat × List Tree)
  topStore : List (Nat × NodeHash)
  kvStore : List (KeyHash × Nat × Option ValueHash)
  committed : Option Nat
deriving DecidableEq, Repr

/-- Version lookup in a per-version store. -/
def lookupV {α : Type} (l : List (Nat × α)) (v : Nat) : Option α :=
  (l.find? (fun e => e.1 == v)).map (fun e => e.2)

/-- The raw value records written for one version: one
`(key_hash, version) → value-or-tombstone` record per update. -/
def kvRecordsOf (version : Nat) (updates : List Batch) :
    List (KeyHash × Nat × Option ValueHash) :=
  updates.flatten.map (fun u => (u.1, version, u.2))

/-- Modelled from the spec: the `VersionedCommitCoordinator`'s `commit`
(realized by `StateKvDb::commit` and `StateMerkleDb::commit`, outside the
source set).  MERKLIZE all shards, AGGREGATE, then PERSIST the value batch
and all node batches atomically; `persistOk` models whether the durable
write succeeds.  On failure the version is FAILED as a whole: the state is
left untouched and the latest committed version does not move. -/
def commit (st : DbState) (version : Nat) (base : Option Nat)
    (updates : List Batch) (persistOk : Bool) : DbState × Except String NodeHash :=
  match (match base with
         | none => some (List.replicate NUM_STATE_SHARDS Tree.null)
         | some bv => lookupV st.nodeStore bv) with
  | none => (st, Except.error "missing base version")
  | some bts =>
    match merklizeAllParallel (fun sid => bts.getD sid Tree.null) updates with
    | (newTrees, _batches) =>
      match calculate_top_levels (newTrees.map rootHash) with
      | Except.error e => (st, Except.error e)
      | Except.ok groot =>
        if persistOk then
          ({ nodeStore := (version, newTrees) :: st.nodeStore,
             topStore := (version, groot) :: st.topStore,
             kvStore := kvRecordsOf version updates ++ st.kvStore,
             committed := some version },
           Except.ok groot)
        else (st, Except.error "persist failed")

/-! ## The raw value store -/

/-- One scan step of the raw-value point lookup: keep the record for `k`
with the greatest version `≤ v` seen so far. -/
def kvStep (k : KeyHash) (v : Nat) (acc : Option (Nat × Option ValueHash))
    (r : KeyHash × Nat × Option ValueHash) : Option (Nat × Option ValueHash) :=
  if r.1 = k ∧ r.2.1 ≤ v then
    match acc with
    | none => some r.2
    | some best => if best.1 < r.2.1 then some r.2 else acc
  else acc

/-- Modelled from the spec: the `RawValueStore` point lookup
`get(key_hash, version)` over `StateValueByKeyHashSchema` records (the
schema's read path is outside the source set) — scan the records and return
the one for `k` at the greatest version `≤ v`; no auxiliary latest-per-key
index is consulted. -/
def kvGet (recs : List (KeyHash × Nat × Option ValueHash)) (k : KeyHash)
    (v : Nat) : Option (Nat × Option ValueHash) :=
  recs.foldl (kvStep k v) none

section KvLemmas

variable (k : KeyHash) (v : Nat)

theorem kvFold_mono (recs : List (KeyHash × Nat × Option ValueHash))
    (p : Nat × Option ValueHash) :
    ∃ q, recs.foldl (kvStep k v) (some p) = some q ∧ p.1 ≤ q.1 := by
  induction recs generalizing p with
  | nil => exact ⟨p, rfl, Nat.le_refl _⟩
  | cons r recs ih =>
    simp only [List.foldl_cons]
    by_cases hc : r.1 = k ∧ r.2.1 ≤ v
    · by_cases hlt : p.1 < r.2.1
      · obtain ⟨q, hq, hle⟩ := ih r.2
        exact ⟨q, by simpa [kvStep, hc, hlt] using hq,
          Nat.le_trans (Nat.le_of_lt hlt) hle⟩
      · obtain ⟨q, hq, hle⟩ := ih p
        exact ⟨q, by simpa [kvStep, hc, hlt] using hq, hle⟩
    · obtain ⟨q, hq, hle⟩ := ih p
      exact ⟨q, by simpa [kvStep, hc] using hq, hle⟩

theorem kvFold_reaches (recs : List (KeyHash × Nat × Option ValueHash))
    (acc : Option (Nat × Option ValueHash)) (r : KeyHash × Nat × Option ValueHash)
    (hr : r ∈ recs) (hk : r.1 = k) (hv : r.2.1 ≤ v) :
    ∃ q, recs.foldl (kvStep k v) acc = some q ∧ r.2.1 ≤ q.1 := by
  induction recs generalizing acc with
  | nil => exact absurd hr (List.not_mem_nil r)
  | cons r' recs ih =>
    simp only [List.foldl_cons]
    rcases List.mem_cons.mp hr with hr' | hr'
    · subst hr'
      have hstep : ∃ p, kvStep k v acc r = some p ∧ r.2.1 ≤ p.1 := by
        cases acc with
        | none => exact ⟨r.2, by simp [kvStep, hk, hv], Nat.le_refl _⟩
        | some best =>
          by_cases hlt : best.1 < r.2.1
          · exact ⟨r.2, by simp [kvStep, hk, hv, hlt], Nat.le_refl _⟩
          · exact ⟨best, by simp [kvStep, hk, hv, hlt],
              Nat.le_of_not_lt hlt⟩
      obtain ⟨p, hp, hle⟩ := hstep
      obtain ⟨q, hq, hle'⟩ := kvFold_mono k v recs p
      exact ⟨q, by rw [hp]; exact hq, Nat.le_trans hle hle'⟩
    · exact ih (kvStep k v acc r') hr'

theorem kvFold_sound (recs : List (KeyHash × Nat × Option ValueHash))
    (acc : Option (Nat × Option ValueHash)) (q : Nat × Option ValueHash)
    (h : recs.foldl (kvStep k v) acc = some q) :
    acc = some q ∨ ((k, q) ∈ recs ∧ q.1 ≤ v) := by
  induction recs generalizing acc with
  | nil => exact Or.inl h
  | cons r recs ih =>
    simp only [List.foldl_cons] at h
    rcases ih (kvStep k v acc r) h with hstep | hmem
    · by_cases hc : r.1 = k ∧ r.2.1 ≤ v
      · cases acc with
        | none =>
          simp only [kvStep, if_pos hc] at hstep
          right
          refine ⟨?_, ?_⟩
          · rw [List.mem_cons]
            left
            rw [← hc.1, ← Option.some.injEq _ _ |>.mp hstep]
          · rw [← (Option.some.injEq _ _).mp hstep]
            exact hc.2
        | some best =>
          simp only [kvStep, if_pos hc] at hstep
          by_cases hlt : best.1 < r.2.1
          · rw [if_pos hlt] at hstep
            right
            refine ⟨?_, ?_⟩
            · rw [List.mem_cons]
              left
              rw [← hc.1, ← Option.some.injEq _ _ |>.mp hstep]
            · rw [← (Option.some.injEq _ _).mp hstep]
              exact hc.2
          · rw [if_neg hlt] at hstep
            exact Or.inl hstep
      · simp only [kvStep, if_neg hc] at hstep
        exact Or.inl hstep
    · exact Or.inr ⟨List.mem_cons.mpr (Or.inr hmem.1), hmem.2⟩

end KvLemmas

section PipelineLemmas

theorem seq_foldl_aux (base : Nat → Tree) (updates : List Batch)
    (l : List Nat) :
    ∀ (a : List Tree) (b : List (List (List Bool × NodeHash))),
      l.foldl
        (fun acc sid =>
          let rb := merklize_value_set_for_shard sid (updates.getD sid []) (base sid)
          (acc.1 ++ [rb.1], acc.2 ++ [rb.2]))
        (a, b)
      = (a ++ (l.map (fun sid =>
            merklize_value_set_for_shard sid (updates.getD sid []) (base sid))).unzip.1,
         b ++ (l.map (fun sid =>
            merklize_value_set_for_shard sid (updates.getD sid []) (base sid))).unzip.2) := by
  induction l with
  | nil => intro a b; simp
  | cons sid l ih =>
    intro a b
    simp only [List.foldl_cons, List.map_cons, List.unzip_cons]
    rw [ih]
    simp

theorem merklizeAll_seq_eq_par (base : Nat → Tree) (updates : List Batch) :
    merklizeAllSequential base updates = merklizeAllParallel base updates := by
  unfold merklizeAllSequential merklizeAllParallel
  rw [seq_foldl_aux base updates (List.range NUM_STATE_SHARDS) [] []]
  simp [List.unzip_eq_map, List.map_map]

theorem merklizeAllParallel_fst_length (base : Nat → Tree) (updates : List Batch) :
    (merklizeAllParallel base updates).1.length = NUM_STATE_SHARDS := by
  simp [merklizeAllParallel]

theorem calculate_top_levels_ok (roots : List NodeHash)
    (h : roots.length = NUM_STATE_SHARDS) :
    calculate_top_levels roots
      = Except.ok (topRootOf (fun s => roots.getD s NodeHash.nullH)) := by
  simp [calculate_top_levels, h]

theorem commit_fail_fst (st : DbState) (v : Nat) (base : Option Nat)
    (updates : List Batch) : (commit st v base updates false).1 = st := by
  unfold commit
  split
  · rfl
  · split
    split
    · rfl
    · rfl

theorem commit_fail_not_ok (st : DbState) (v : Nat) (base : Option Nat)
    (updates : List Batch) :
    (commit st v base updates false).2.isOk = false := by
  unfold commit
  split
  · rfl
  · split
    split
    · rfl
    · rfl

theorem lookupV_cons_self {α : Type} (l : List (Nat × α)) (v : Nat) (x : α) :
    lookupV ((v, x) :: l) v = some x := by
  simp [lookupV, List.find?]

theorem diffNodes_refl (pos : List Bool) (t : Tree) : diffNodes pos t t = [] := by
  unfold diffNodes
  rw [if_pos rfl]

theorem merklize_nil (t : Tree) : merklize t [] = t := rfl

theorem treeAt_untouched (hist : List ShardedBatch) (v s : Nat)
    (h : (hist.getD (v + 1) []).getD s [] = []) :
    treeAt hist (v + 1) s = treeAt hist v s := by
  unfold treeAt shardTreeAt
  rw [List.take_succ]
  cases hx : hist[v + 1]? with
  | none => simp
  | some vb =>
    have h2 : hist.getD (v + 1) [] = vb := by simp [List.getD, hx]
    rw [h2] at h
    have hvb : vb[s]?.getD [] = [] := by
      rw [← List.getD_eq_getElem?_getD]
      exact h
    simp [List.foldl_append, hvb, merklize_nil]

end PipelineLemmas

/-! ## The claims -/

/-- Claim C9: merklizing the shards sequentially in shard-id order and
merklizing them in parallel over a worker pool produce the same per-shard
root nodes and node batches for the same inputs, and therefore the same
global root from `calculate_top_levels`. -/
theorem claim_C9_seq_par_equiv (base : Nat → Tree) (updates : List Batch) :
    merklizeAllSequential base updates = merklizeAllParallel base updates ∧
    calculate_top_levels ((merklizeAllSequential base updates).1.map rootHash)
      = calculate_top_levels ((merklizeAllParallel base updates).1.map rootHash) := by
  refine ⟨merklizeAll_seq_eq_par base updates, ?_⟩
  rw [merklizeAll_seq_eq_par base updates]

/-- Claim C5: `calculate_top_levels` fails fatally whenever it is given
fewer than `NUM_STATE_SHARDS` shard roots, and the pipeline invokes it only
on the complete shard set: the merklization stage always hands it exactly
`NUM_STATE_SHARDS` roots (one per shard), on which it succeeds. -/
theorem claim_C5_top_levels_barrier (roots : List NodeHash) :
    (roots.length < NUM_STATE_SHARDS →
      calculate_top_levels roots
        = Except.error "expect shard root nodes for all shards") ∧
    ∀ (base : Nat → Tree) (updates : List Batch),
      (merklizeAllParallel base updates).1.length = NUM_STATE_SHARDS ∧
      (calculate_top_levels
        ((merklizeAllParallel base updates).1.map rootHash)).isOk = true := by
  constructor
  · intro hlt
    simp [calculate_top_levels, Nat.ne_of_lt hlt]
  · intro base updates
    refine ⟨merklizeAllParallel_fst_length base updates, ?_⟩
    rw [calculate_top_levels_ok _ (by
      rw [List.length_map]; exact merklizeAllParallel_fst_length base updates)]
    rfl

/-- Witness for C5 at a concrete partial shard set (the empty root list). -/
theorem claim_C5_witness :
    calculate_top_levels []
      = Except.error "expect shard root nodes for all shards" :=
  (claim_C5_top_levels_barrier []).1 (by decide)

/-- Claim C10: for every key hash, `get_state_shard_id` returns a value
strictly below `NUM_STATE_SHARDS`, so indexing a per-shard vector of length
`NUM_STATE_SHARDS` by the returned shard id is always in bounds. -/
theorem claim_C10_shard_id_in_bounds (key : List Nat) :
    get_state_shard_id key < NUM_STATE_SHARDS ∧
    get_state_shard_id key
      < (List.replicate NUM_STATE_SHARDS ([] : Batch)).length := by
  refine ⟨get_state_shard_id_lt key, ?_⟩
  simpa using get_state_shard_id_lt key

/-- Claim C7: the shard-routing function is pure and deterministic — it is
exactly the first byte of the key hash reduced modulo `NUM_STATE_SHARDS`,
equal inputs give equal shard ids, the read path's `shardOf` is the same
`get_state_shard_id` applied to the key's first byte, and the write path's
routing loop (`routeAll`) files every pair in the bucket chosen by that
same function. -/
theorem claim_C7_shard_routing :
    (∀ key : List Nat, get_state_shard_id key = key.headD 0 % NUM_STATE_SHARDS) ∧
    (∀ key key' : List Nat, key = key' →
      get_state_shard_id key = get_state_shard_id key') ∧
    (∀ k : KeyHash, shardOf k = get_state_shard_id [firstByte k]) ∧
    (∀ (kvs : List (List Nat × Option ValueHash)) (s : Nat),
      s < NUM_STATE_SHARDS →
      (routeAll kvs).getD s []
        = kvs.filter (fun kv => get_state_shard_id kv.1 == s)) := by
  refine ⟨fun _ => rfl, fun key key' h => by rw [h], fun _ => rfl, ?_⟩
  intro kvs s hs
  exact routeAll_getD kvs s hs

/-- Witness for C7 on a concrete routing run: two keys whose first bytes
are 3 and 19 both land in bucket 3, and the bucket content matches the
filter characterization. -/
theorem claim_C7_witness :
    (routeAll [([3, 5], some 7), ([19, 0], some 9), ([4, 4], none)]).getD 3 []
      = [(([3, 5] : List Nat), (some 7 : Option ValueHash)), ([19, 0], some 9)] := by
  rw [claim_C7_shard_routing.2.2.2 [([3, 5], some 7), ([19, 0], some 9), ([4, 4], none)]
    3 (by decide)]
  decide

/-- Claim C2: a version counts as committed only when the raw value writes
and all tree node writes become durable together.  When PERSIST fails, the
whole version is FAILED: the durable state is exactly the prior state (so
the latest committed version does not move and no reader can observe any
part of the version); when PERSIST succeeds, the latest committed version
advances to `v` and the node batch, the top-level batch and every raw value
record of the version are all present together. -/
theorem claim_C2_atomic_persist (st : DbState) (v : Nat) (base : Option Nat)
    (updates : List Batch) :
    ((commit st v base updates false).1 = st ∧
      (commit st v base updates false).2.isOk = false) ∧
    ∀ g, (commit st v base updates true).2 = Except.ok g →
      (commit st v base updates true).1.committed = some v ∧
      (∃ ts, lookupV (commit st v base updates true).1.nodeStore v = some ts) ∧
      lookupV (commit st v base updates true).1.topStore v = some g ∧
      ∀ u ∈ updates.flatten,
        (u.1, v, u.2) ∈ (commit st v base updates true).1.kvStore := by
  refine ⟨⟨commit_fail_fst st v base updates, commit_fail_not_ok st v base updates⟩, ?_⟩
  intro g hg
  unfold commit at hg ⊢
  revert hg
  split
  · intro hg; exact absurd hg (by simp)
  · split
    split
    · intro hg; exact absurd hg (by simp)
    · intro hg
      simp only [if_pos rfl] at hg ⊢
      refine ⟨rfl, ⟨_, lookupV_cons_self _ v _⟩, ?_, ?_⟩
      · rw [← Except.ok.inj hg]
        exact lookupV_cons_self _ v _
      · intro u hu
        exact List.mem_append.mpr (Or.inl (List.mem_map.mpr ⟨u, hu, rfl⟩))

/-- Witness for C2: on the empty store, a failed commit of version 1 leaves
the state untouched, and a successful one advances the committed version. -/
theorem claim_C2_witness :
    (commit ⟨[], [], [], none⟩ 1 none [[([false], some 5)]] false).1
        = (⟨[], [], [], none⟩ : DbState) ∧
    (commit ⟨[], [], [], none⟩ 1 none [[([false], some 5)]] true).1.committed
        = some 1 := by
  refine ⟨(claim_C2_atomic_persist ⟨[], [], [], none⟩ 1 none [[([false], some 5)]]).1.1, ?_⟩
  exact ((claim_C2_atomic_persist ⟨[], [], [], none⟩ 1 none
    [[([false], some 5)]]).2 _ rfl).1

/-- Claim C4: retrying `commit` with the identical
`(version, base_version, updates)` triple after a FAILED attempt yields the
very same result — in particular the same global root hash — as a single
uninterrupted successful commit of that triple. -/
theorem claim_C4_replay_idempotent (st : DbState) (v : Nat)
    (base : Option Nat) (updates : List Batch) :
    commit ((commit st v base updates false).1) v base updates true
        = commit st v base updates true ∧
    (commit ((commit st v base updates false).1) v base updates true).2
        = (commit st v base updates true).2 := by
  rw [commit_fail_fst st v base updates]
  exact ⟨rfl, rfl⟩

/-- Claim C3 as stated is false: an update set containing two updates for
the same key is order-dependent.  Concretely, setting key `[false]` to 0
then 1 and setting it to 1 then 0 are permutations of the same update set
over the same (empty) base, yet they produce different shard roots. -/
theorem claim_C3_counterexample :
    [(([false] : KeyHash), (some 0 : Option ValueHash)), ([false], some 1)].Perm
        [(([false] : KeyHash), (some 1 : Option ValueHash)), ([false], some 0)] ∧
    rootHash (merklize Tree.null
        [(([false] : KeyHash), (some 0 : Option ValueHash)), ([false], some 1)])
      ≠ rootHash (merklize Tree.null
        [(([false] : KeyHash), (some 1 : Option ValueHash)), ([false], some 0)]) :=
  ⟨List.Perm.swap ([false], some 1) ([false], some 0) [], by decide⟩

/-- Claim C3 (amended: provided no two updates in the set share a
key hash): merklizing the same update set in any two within-shard orders
against the same base yields the same tree, hence an identical shard root,
and hence an identical global root however the other shards' roots are
fixed. -/
theorem claim_C3_order_independent (t : Tree) (b1 b2 : Batch)
    (hperm : b1.Perm b2)
    (hnodup : (b1.map Prod.fst).Nodup)
    (hwidth : ∀ u ∈ b1, ∀ w ∈ b1, u.1.length = w.1.length) :
    merklize t b1 = merklize t b2 ∧
    rootHash (merklize t b1) = rootHash (merklize t b2) ∧
    ∀ (roots : Nat → NodeHash) (s : Nat),
      topRootOf (Function.update roots s (rootHash (merklize t b1)))
        = topRootOf (Function.update roots s (rootHash (merklize t b2))) := by
  have hmain : merklize t b1 = merklize t b2 := by
    refine List.Perm.foldl_eq' hperm ?_ t
    intro x hx y hy z
    by_cases hxy : x = y
    · rw [hxy]
    · have hkey : x.1 ≠ y.1 := by
        intro hk
        exact hxy (List.inj_on_of_nodup_map hnodup hx hy hk)
      show setLeaf y.1 (setLeaf x.1 z (x.2.map (fun vh => (x.1, vh))))
            (y.2.map (fun vh => (y.1, vh)))
          = setLeaf x.1 (setLeaf y.1 z (y.2.map (fun vh => (y.1, vh))))
            (x.2.map (fun vh => (x.1, vh)))
      exact setLeaf_comm y.1 x.1 z
        (y.2.map (fun vh => (y.1, vh))) (x.2.map (fun vh => (x.1, vh)))
        (hwidth y hy x hx) (fun h => hkey (h.symm))
  exact ⟨hmain, by rw [hmain], fun roots s => by rw [hmain]⟩

/-- Witness for C3 (amended) on two distinct-key updates in both orders. -/
theorem claim_C3_witness :
    merklize Tree.null
        [(([false] : KeyHash), (some 1 : Option ValueHash)), ([true], some 2)]
      = merklize Tree.null
        [(([true] : KeyHash), (some 2 : Option ValueHash)), ([false], some 1)] :=
  (claim_C3_order_independent Tree.null
    [(([false] : KeyHash), (some 1 : Option ValueHash)), ([true], some 2)]
    [(([true] : KeyHash), (some 2 : Option ValueHash)), ([false], some 1)]
    (List.Perm.swap ([true], some 2) ([false], some 1) [])
    (by decide) (by decide)).1

/-- Claim C6: if a commit at version `v + 1` contains no updates for shard
`s`, then shard `s`'s root at version `v + 1` is hash-identical to its root
at version `v`, and the copy-on-write node batch for that shard is empty
(no spurious rewrite of untouched shards). -/
theorem claim_C6_untouched_shard_frame (hist : List ShardedBatch) (v s : Nat)
    (h : (hist.getD (v + 1) []).getD s [] = []) :
    shardRootAt hist (v + 1) s = shardRootAt hist v s ∧
    diffNodes [] (treeAt hist v s) (treeAt hist (v + 1) s) = [] := by
  have ht : treeAt hist (v + 1) s = treeAt hist v s := treeAt_untouched hist v s h
  refine ⟨?_, ?_⟩
  · unfold shardRootAt
    rw [ht]
  · rw [ht]
    exact diffNodes_refl [] (treeAt hist v s)

/-- Witness for C6: version 1 touches only shard 0, so shard 1's root and
node batch at version 1 are unchanged from version 0. -/
theorem claim_C6_witness :
    shardRootAt [[[(List.replicate 9 false, some 3)], []],
        [[(List.replicate 9 false, some 4)], []]] 1 1
      = shardRootAt [[[(List.replicate 9 false, some 3)], []],
        [[(List.replicate 9 false, some 4)], []]] 0 1 ∧
    diffNodes []
        (treeAt [[[(List.replicate 9 false, some 3)], []],
          [[(List.replicate 9 false, some 4)], []]] 0 1)
        (treeAt [[[(List.replicate 9 false, some 3)], []],
          [[(List.replicate 9 false, some 4)], []]] 1 1) = [] :=
  claim_C6_untouched_shard_frame
    [[[(List.replicate 9 false, some 3)], []],
      [[(List.replicate 9 false, some 4)], []]] 0 1 (by decide)

/-- Claim C8: the raw value store point lookup returns the record for the
key at the greatest version `≤` the requested version — every eligible
record forces a result at least as recent (maximality and completeness),
the result is itself an eligible record (soundness), and a `none` result
means no record for the key exists at or before the requested version.  The
lookup scans only the records themselves; no latest-per-key index exists in
its definition. -/
theorem claim_C8_kv_closest_version
    (recs : List (KeyHash × Nat × Option ValueHash)) (k : KeyHash) (v : Nat) :
    (∀ r ∈ recs, r.1 = k → r.2.1 ≤ v →
      ∃ q, kvGet recs k v = some q ∧ r.2.1 ≤ q.1) ∧
    (∀ q, kvGet recs k v = some q → (k, q) ∈ recs ∧ q.1 ≤ v) ∧
    (kvGet recs k v = none → ∀ r ∈ recs, r.1 = k → ¬ r.2.1 ≤ v) := by
  refine ⟨?_, ?_, ?_⟩
  · intro r hr hk hv
    exact kvFold_reaches k v recs none r hr hk hv
  · intro q hq
    rcases kvFold_sound k v recs none q hq with hnone | hmem
    · exact absurd hnone (by simp)
    · exact ⟨hmem.1, hmem.2⟩
  · intro hnone r hr hk hv
    obtain ⟨q, hq, _⟩ := kvFold_reaches k v recs none r hr hk hv
    have hq' : kvGet recs k v = some q := hq
    rw [hnone] at hq'
    exact absurd hq' (by simp)

/-- Witness for C8 on a concrete record list: at requested version 4, the
lookup returns the record at version 3 (the greatest `≤ 4`), and that
result is a sound record. -/
theorem claim_C8_witness :
    kvGet [([true], 1, some 5), ([true], 3, some 7), ([false], 2, some 9),
        ([true], 9, some 8)] [true] 4 = some (3, some 7) ∧
    ((([true] : KeyHash), 3, (some 7 : Option ValueHash))
        ∈ [([true], 1, some 5), ([true], 3, some 7), ([false], 2, some 9),
            ([true], 9, some 8)] ∧ 3 ≤ 4) :=
  ⟨by decide,
    (claim_C8_kv_closest_version
      [([true], 1, some 5), ([true], 3, some 7), ([false], 2, some 9),
        ([true], 9, some 8)] [true] 4).2.1 (3, some 7) (by decide)⟩

/-- Claim C1: for every key and version such that the key was last set at
or before that version (across the whole history, with updates correctly
routed to their shards and all key hashes of the fixed width) and not
subsequently deleted, `get_with_proof` returns exactly the value hash that
was set, and its proof lets an independent verifier — using only the leaf's
value hash and the sibling list — recompute `get_root_hash(version)`. -/
theorem claim_C1_get_with_proof_correct
    (hist : List ShardedBatch) (k : KeyHash) (version : Nat) (vh : ValueHash)
    (hshards : ∀ vb ∈ hist, vb.length = NUM_STATE_SHARDS)
    (hroute : ∀ vb ∈ hist, ∀ i < NUM_STATE_SHARDS,
      ∀ u ∈ vb.getD i [], shardOf u.1 = i)
    (hwidth : ∀ vb ∈ hist, ∀ u ∈ vb.flatten, u.1.length = k.length)
    (hlast : lastWriteAll hist k version = some (some vh)) :
    (get_with_proof hist k version).1 = some vh ∧
    verifyProof k vh (get_with_proof hist k version).2
      = get_root_hash hist version := by
  have hs : shardOf k < NUM_STATE_SHARDS := shardOf_lt k
  have hroute' : ∀ vb ∈ hist.take (version + 1), ∀ i,
      ∀ u ∈ vb.getD i [], shardOf u.1 = i := by
    intro vb hvb i u hu
    have hvb' : vb ∈ hist := List.take_subset _ _ hvb
    by_cases hi : i < NUM_STATE_SHARDS
    · exact hroute vb hvb' i hi u hu
    · have hlen : vb.length ≤ i := by
        rw [hshards vb hvb']
        exact Nat.le_of_not_lt hi
      have hemp : vb.getD i [] = [] := by
        simp [List.getD, List.getElem?_eq_none hlen]
      rw [hemp] at hu
      exact absurd hu (List.not_mem_nil u)
  have hfold : treeAt hist version (shardOf k)
      = ((hist.take (version + 1)).map
          (fun vb => vb.getD (shardOf k) [])).foldl merklize Tree.null := by
    unfold treeAt shardTreeAt
    rw [List.foldl_map]
  have hleaf : getLeaf k (treeAt hist version (shardOf k)) = some (k, vh) := by
    rw [hfold, getLeaf_foldBatches k _ Tree.null (by
      intro b hb u hu
      obtain ⟨vb, hvb, rfl⟩ := List.mem_map.mp hb
      exact hwidth vb (List.take_subset _ _ hvb) u (mem_getD_flatten vb _ u hu)),
      List.foldl_map,
      ← lastWrite_flatten_getD k (hist.take (version + 1)) hroute']
    rw [show (hist.take (version + 1)).foldl
        (fun a vb => lastUpd k vb.flatten a) none
        = lastWriteAll hist k version from rfl, hlast]
    rfl
  constructor
  · show (getLeaf k (treeAt hist version (shardOf k))).map (fun kv => kv.2)
      = some vh
    rw [hleaf]
    rfl
  · show combine (bitsBE TOP_DEPTH (shardOf k) ++ k)
        (topSibs (bitsBE TOP_DEPTH (shardOf k))
            (fun p => shardRootAt hist version (pathToNat p))
          ++ proofSiblings k (treeAt hist version (shardOf k)))
        (NodeHash.leafH k vh)
      = get_root_hash hist version
    rw [combine_append (bitsBE TOP_DEPTH (shardOf k)) k
        (topSibs (bitsBE TOP_DEPTH (shardOf k))
          (fun p => shardRootAt hist version (pathToNat p)))
        (proofSiblings k (treeAt hist version (shardOf k)))
        (NodeHash.leafH k vh) (topSibs_length _ _),
      combine_proofSiblings k (treeAt hist version (shardOf k)) k vh hleaf]
    have hback : rootHash (treeAt hist version (shardOf k))
        = (fun p => shardRootAt hist version (pathToNat p))
            (bitsBE TOP_DEPTH (shardOf k)) := by
      show rootHash (treeAt hist version (shardOf k))
        = shardRootAt hist version (pathToNat (bitsBE TOP_DEPTH (shardOf k)))
      rw [pathToNat_bitsBE (shardOf k) hs]
      rfl
    rw [hback, combine_topSibs (bitsBE TOP_DEPTH (shardOf k))
        (fun p => shardRootAt hist version (pathToNat p)),
      length_bitsBE]
    rfl

/-- Witness for C1: a one-version history that sets one key (routed to
shard 0) to value hash 7; `get_with_proof` returns 7 and its proof verifies
to the global root at version 0. -/
theorem claim_C1_witness :
    (get_with_proof
        [[[(List.replicate 8 false ++ [true], some 7)]]
          ++ List.replicate 15 []]
        (List.replicate 8 false ++ [true]) 0).1 = some 7 ∧
    verifyProof (List.replicate 8 false ++ [true]) 7
        (get_with_proof
          [[[(List.replicate 8 false ++ [true], some 7)]]
            ++ List.replicate 15 []]
          (List.replicate 8 false ++ [true]) 0).2
      = get_root_hash
        [[[(List.replicate 8 false ++ [true], some 7)]]
          ++ List.replicate 15 []] 0 :=
  claim_C1_get_with_proof_correct
    [[[(List.replicate 8 false ++ [true], some 7)]] ++ List.replicate 15 []]
    (List.replicate 8 false ++ [true]) 0 7
    (by decide) (by decide) (by decide) (by decide)

end ShardedJmt
